import Mathlib

/-!
Verification of the autocode task-orchestration engine.

This file gives a shallow embedding of the core of the repository:

* the task-tree builder (`src/core/scanner.ts`: `parseTaskOrder`,
  `organizeIntoTree`, `findNextInTree`, `findNextExecutableTasks`),
* the scheduler helpers of `src/tools/orchestrate.ts`
  (`extractTestResult`, `extractExecuteResult`, `extractSessionId`,
  `lastNLines`, `findSessionFile`, `findNextGroup`, `executeTask`,
  the concurrent-group branch of `autocode_orchestrate_resume`),
* the status-transition layer of `src/core/state.ts`
  (`moveTaskStatus`, `movePlanToStage`) over an abstract directory model.

TypeScript strings are modelled as Lean `String` (operating on `List Char`);
JavaScript `Map` insertion-order semantics are modelled by association lists;
the agent-execution service (create session / prompt / read messages) is
modelled by an oracle value describing the outcome of one whole
create-prompt-read exchange.  Filesystem writes are modelled as a list of
file names written, and reads as fields of an input record; filesystem
write errors are outside the model (the source ignores them with catch
handlers on all paths relevant to the claims).
-/

namespace Autocode

/-! ## Generic list and string helpers (JS primitives) -/

/-- listStarts p l : does the list l start with the pattern p
(model of JS String.startsWith on char lists). -/
def listStarts : List Char → List Char → Bool
  | [], _ => true
  | _ :: _, [] => false
  | d :: ds, c :: cs => c = d && listStarts ds cs

/-- strStarts p s : does the string s start with p (JS s.startsWith(p)). -/
def strStarts (p s : String) : Bool := listStarts p.toList s.toList

/-- strEnds p s : does the string s end with p (JS s.endsWith(p)). -/
def strEnds (p s : String) : Bool := listStarts p.toList.reverse s.toList.reverse

/-- listHasSub p l : does l contain p as a contiguous sublist
(model of JS String.includes). -/
def listHasSub (p : List Char) : List Char → Bool
  | [] => listStarts p []
  | c :: cs => listStarts p (c :: cs) || listHasSub p cs

/-- strHasSub p s : does s contain the substring p (JS s.includes(p)). -/
def strHasSub (p s : String) : Bool := listHasSub p.toList s.toList

/-- ASCII uppercase of a string; agrees with JS toUpperCase on ASCII input,
which is all the verdict scan needs ("FAIL" is ASCII). -/
def upperAscii (s : String) : String := String.mk (s.toList.map Char.toUpper)

/-- Strip the pattern p from the front of l, returning the remainder. -/
def stripStart : List Char → List Char → Option (List Char)
  | [], l => some l
  | _ :: _, [] => none
  | d :: ds, c :: cs => if c = d then stripStart ds cs else none

/-- Base-10 numeral value of a digit list (model of JS parseInt on a
digit-only string; arbitrary precision is an idealisation of JS numbers). -/
def digitsToNat (ds : List Char) : Nat :=
  ds.foldl (fun n c => 10 * n + (c.toNat - '0'.toNat)) 0

/-! ## Data model: tasks and task trees (src/core/types.ts)

A `Task` keeps the fields the claims depend on: directory name, display
name, nullable numeric order, status, skipped marker and nested subtask
groups.  The scanned file-content fields (buildPrompt, testPrompt,
buildSession, testSession, relativePath, fullPath) play no role in any
claim and are omitted from the record.  A `TaskTree` is its list of
groups; each group is a list of tasks that may run concurrently. -/

inductive TStatus where
  | accepted
  | busy
  | tested
deriving DecidableEq, Repr

inductive Task where
  | mk : String → String → Option Nat → TStatus → Bool → List (List Task) → Task

/-- Directory name of a task. -/
def Task.dirName : Task → String
  | .mk d _ _ _ _ _ => d

/-- Display name (directory name with numeric prefix removed). -/
def Task.displayName : Task → String
  | .mk _ n _ _ _ _ => n

/-- Nullable numeric order parsed from the directory name. -/
def Task.order : Task → Option Nat
  | .mk _ _ o _ _ _ => o

/-- Current status container of the task. -/
def Task.status : Task → TStatus
  | .mk _ _ _ s _ _ => s

/-- Whether the .skipped marker file is present. -/
def Task.skipped : Task → Bool
  | .mk _ _ _ _ k _ => k

/-- Nested subtask tree (its list of groups). -/
def Task.subtasks : Task → List (List Task)
  | .mk _ _ _ _ _ sub => sub

/-- The task tree: an ordered list of groups. -/
structure TaskTree where
  groups : List (List Task)

/-- A plan, restricted to the fields the scheduler claims use. -/
structure Plan where
  name : String
  tasks : List (List Task)

/-! ## parseTaskOrder (src/core/scanner.ts, lines 149-158)

Model of `dirName.match(/^(\d+)-(.+)$/)`: a leading maximal run of decimal
digits, immediately followed by a dash, followed by a non-empty rest.  When
the pattern matches, the order is the base-10 value of the digit run and
the name is the rest; otherwise order is null and the name is the whole
directory name. -/

def parseTaskOrderL (l : List Char) : Option Nat × List Char :=
  let ds := l.takeWhile Char.isDigit
  match l.dropWhile Char.isDigit with
  | '-' :: rest =>
      if ds.isEmpty || rest.isEmpty then (none, l) else (some (digitsToNat ds), rest)
  | _ => (none, l)

def parseTaskOrder (dirName : String) : Option Nat × String :=
  let r := parseTaskOrderL dirName.toList
  (r.1, String.mk r.2)

/-- Model of scanner parseTask restricted to its naming fields: a task
built from a directory name, a status container, a skipped flag and its
already-scanned subtask groups. -/
def taskFromName (dirName : String) (status : TStatus) (skipped : Bool)
    (subtasks : List (List Task)) : Task :=
  let r := parseTaskOrder dirName
  .mk dirName r.2 r.1 status skipped subtasks

/-! ## organizeIntoTree (src/core/scanner.ts, lines 215-242)

The source accumulates numbered tasks into a JS `Map<number, Task[]>`
(which preserves key insertion order and appends to per-key buckets) and
unnumbered tasks into a separate array, then emits the buckets sorted
numerically by key, followed by one trailing group holding the unnumbered
tasks when there are any.  The `Map` is modelled by an association list
with the same insertion-order behaviour. -/

/-- Append a task to the bucket of key o, or create a new bucket at the
end (JS Map key insertion order). -/
def bucketAdd (o : Nat) (t : Task) : List (Nat × List Task) → List (Nat × List Task)
  | [] => [(o, [t])]
  | (k, g) :: rest =>
      if k = o then (k, g ++ [t]) :: rest else (k, g) :: bucketAdd o t rest

/-- One step of the grouping loop in organizeIntoTree. -/
def bucketStep (m : List (Nat × List Task)) (t : Task) : List (Nat × List Task) :=
  match t.order with
  | some o => bucketAdd o t m
  | none => m

/-- The Map of numbered tasks after the grouping loop. -/
def collectNumbered (ts : List Task) : List (Nat × List Task) :=
  ts.foldl bucketStep []

/-- Keys of the bucket map in insertion order (JS Map.keys()). -/
def bucketKeys (m : List (Nat × List Task)) : List Nat := m.map (·.1)

/-- Bucket lookup (JS Map.get as association-list lookup; total because
organizeIntoTree only calls it on present keys, where it returns the
bucket, and [] stands for the absent-key case). -/
def bucketGet : List (Nat × List Task) → Nat → List Task
  | [], _ => []
  | (k, g) :: rest, o => if k = o then g else bucketGet rest o

def organizeIntoTree (ts : List Task) : TaskTree :=
  let numbered := collectNumbered ts
  let unnumbered := ts.filter (fun t => t.order = none)
  let sortedOrders := List.insertionSort (· ≤ ·) (bucketKeys numbered)
  let groups := sortedOrders.map (fun o => bucketGet numbered o)
  ⟨if unnumbered.isEmpty then groups else groups ++ [unnumbered]⟩

/-! ## findNextExecutableTasks (src/core/scanner.ts, lines 304-350)

The source walks the groups in order; a group whose members are all tested
or skipped is passed over; the first group with work returns immediately:
it yields the subtask ready-set of the first member whose subtasks still
need work, otherwise collects accepted members, returning the empty list
as soon as a busy member is seen, and otherwise the collected accepted
members (null when none).  `findNextInTree({groups: []})` is null, so the
`subtasks.groups.length > 0` pre-check of the source collapses into the
recursive call. -/

/-- Completion test used by the walker: tested or skipped. -/
def complete (t : Task) : Bool := t.status = TStatus.tested || t.skipped

theorem sizeOf_subtasks_lt (t : Task) : sizeOf t.subtasks < sizeOf t := by
  cases t with
  | mk a b c d e f => simp [Task.subtasks]

mutual

def findNextInTree : List (List Task) → Option (List Task)
  | [] => none
  | g :: rest =>
      if g.all complete then findNextInTree rest
      else processGroup g []
termination_by gs => sizeOf gs
decreasing_by
  all_goals simp_wf <;> omega

/-- The per-group loop of findNextInTree, with the readyTasks accumulator. -/
def processGroup : List Task → List Task → Option (List Task)
  | [], acc => if acc.isEmpty then none else some acc
  | t :: ts, acc =>
      if complete t then processGroup ts acc
      else
        match findNextInTree t.subtasks with
        | some l => some l
        | none =>
            if t.status = TStatus.accepted then processGroup ts (acc ++ [t])
            else if t.status = TStatus.busy then some []
            else processGroup ts acc
termination_by g _ => sizeOf g
decreasing_by
  all_goals simp_wf
  all_goals have := sizeOf_subtasks_lt t
  all_goals omega

end

def findNextExecutableTasks (plan : Plan) : Option (List Task) :=
  findNextInTree plan.tasks

/-! ## Transcript model and verdict parsers (src/tools/orchestrate.ts)

A `MessageEntry` has a role (the source nests it as `info.role`; flattened
here) and a list of parts, each with a type tag and optional text. -/

structure MsgPart where
  type : String
  text : Option String
deriving DecidableEq

structure MessageEntry where
  role : String
  parts : List MsgPart
deriving DecidableEq

/-- The text of the last assistant message: text-typed parts joined by
newlines, empty when there is no assistant message.  This is the common
expression of `extractTestResult` (lines 70-74) and of the
`test_verification` detail collection in `executeTask` (lines 466-471). -/
def lastAssistantText (messages : List MessageEntry) : String :=
  match (messages.filter (fun m => m.role = "assistant")).getLast? with
  | none => ""
  | some last =>
      String.intercalate "\n"
        ((last.parts.filter (fun p => p.type = "text")).map (fun p => p.text.getD ""))

structure TestResult where
  passed : Bool
  reason : String
deriving DecidableEq

/-- extractTestResult (orchestrate.ts, lines 65-79): no assistant message
is a failure; otherwise the verdict is FAIL exactly when the uppercased
text of the last assistant message contains the substring FAIL. -/
def extractTestResult (messages : List MessageEntry) : TestResult :=
  let assistant := messages.filter (fun m => m.role = "assistant")
  if assistant.isEmpty then
    ⟨false, "No assistant response found in test session."⟩
  else
    let text := lastAssistantText messages
    if strHasSub "FAIL" (upperAscii text) then
      ⟨false, String.mk (text.toList.take 1000)⟩
    else
      ⟨true, String.mk (text.toList.take 500)⟩

inductive ExecVerdict where
  | success (content : String)
  | failure (content : String)
deriving DecidableEq

/-- Leftmost-lazy content of an XML-style tag pair: the body between the
first occurrence of `openTag` that is followed by a `closeTag`, up to the
first such `closeTag` (model of the lazy regex
`openTag([\s\S]*?)closeTag` used in extractExecuteResult). -/
def firstIdxOfSub (pat : List Char) : List Char → Option Nat
  | [] => if listStarts pat [] then some 0 else none
  | c :: cs =>
      if listStarts pat (c :: cs) then some 0
      else (firstIdxOfSub pat cs).map (· + 1)

def tagContent (openTag closeTag : List Char) (text : List Char) : Option (List Char) :=
  match firstIdxOfSub openTag text with
  | none => none
  | some i =>
      let body := text.drop (i + openTag.length)
      match firstIdxOfSub closeTag body with
      | none => none
      | some j => some (body.take j)

/-- extractExecuteResult (orchestrate.ts, lines 130-154): no assistant
message is a failure; a failure tag wins over a success tag; no tag at all
defaults to success with empty content (backward compatibility). -/
def extractExecuteResult (messages : List MessageEntry) : ExecVerdict :=
  let assistant := messages.filter (fun m => m.role = "assistant")
  if assistant.isEmpty then
    .failure "No assistant response found in execute session."
  else
    let text := lastAssistantText messages
    match tagContent "<failure>".toList "</failure>".toList text.toList with
    | some c => .failure (String.mk c).trim
    | none =>
        match tagContent "<success>".toList "</success>".toList text.toList with
        | some c => .success (String.mk c).trim
        | none => .success ""

/-! ## Session-file naming (orchestrate.ts, lines 85-89 and 184-191) -/

/-- Strip the regex alternation `(?:task|test)\.(?:success|failed)\.` from
the front of a filename; the four prefixes are mutually exclusive. -/
def stripSessionTag (f : List Char) : Option (List Char) :=
  match stripStart "task.success.".toList f with
  | some r => some r
  | none =>
      match stripStart "task.failed.".toList f with
      | some r => some r
      | none =>
          match stripStart "test.success.".toList f with
          | some r => some r
          | none => stripStart "test.failed.".toList f

/-- Split off a final `.md`, requiring a non-empty middle
(the `(.+)\.md$` part of the session-id regex). -/
def chopMdSuffix (rest : List Char) : Option (List Char) :=
  match rest.reverse with
  | 'd' :: 'm' :: '.' :: c :: cs => some ((c :: cs).reverse)
  | _ => none

/-- extractSessionId (orchestrate.ts, lines 85-89): parse the id out of a
session filename `{task|test}.{success|failed}.{id}.md`, with "unknown"
when the name does not match. -/
def extractSessionId (fileName : String) : String :=
  match stripSessionTag fileName.toList with
  | none => "unknown"
  | some rest =>
      match chopMdSuffix rest with
      | none => "unknown"
      | some mid => String.mk mid

/-- findSessionFile (orchestrate.ts, lines 184-191): first directory entry
starting with `{pfx}.` and ending in `.md`; the directory listing is the
`entries` list, and the returned value is the matching entry name (the
source prepends the directory path). -/
def findSessionFile (entries : List String) (pfx : String) : Option String :=
  entries.find? (fun e => strStarts (pfx ++ ".") e && strEnds ".md" e)

/-- Filename written by autocode_orchestrate_fix_task on success
(orchestrate.ts, line 655): reuses the given build session id. -/
def fixTaskSuccessFile (sessionId : String) : String :=
  "task.success." ++ sessionId ++ ".md"

/-! ## lastNLines (orchestrate.ts, lines 156-163) -/

/-- Split a character list at newline characters, keeping empty pieces
(model of JS text.split("\n")). -/
def splitLines : List Char → List (List Char)
  | [] => [[]]
  | c :: cs =>
      match splitLines cs with
      | [] => [[]]
      | l :: ls => if c = '\n' then [] :: l :: ls else (c :: l) :: ls

/-- A line is blank when JS l.trim() gives the empty string: every
character is whitespace (ASCII approximation of the JS trim set). -/
def isBlankLine (l : List Char) : Bool := l.all (fun c => c.isWhitespace)

/-- Join lines with newlines (model of JS lines.join("\n")). -/
def joinNl : List (List Char) → List Char
  | [] => []
  | [l] => l
  | l :: ls => l ++ '\n' :: joinNl ls

/-- Last n non-blank lines of a text block: split on newlines, drop blank
lines, keep the last n (JS slice(-n)), rejoin. -/
def lastNLines (text : String) (n : Nat) : String :=
  let kept := (splitLines text.toList).filter (fun l => !(isBlankLine l))
  String.mk (joinNl (kept.drop (kept.length - n)))

/-! ## findNextGroup (orchestrate.ts, lines 225-235)

Entries are filtered by the pattern `^\d{2}-` (exactly two leading digits
then a dash), stably sorted ascending by the numeric value of the leading
digit run, and the first survivor is returned. -/

/-- The `^\d{2}-` filter of findNextGroup. -/
def matchesNN (e : String) : Bool :=
  match e.toList with
  | a :: b :: c :: _ => a.isDigit && b.isDigit && c = '-'
  | _ => false

/-- Numeric sort key: value of the leading digit run, 0 when there is none
(the `parseInt(a.match(/^(\d+)/)?.[1] ?? "0", 10)` comparator key). -/
def groupKey (e : String) : Nat :=
  let ds := e.toList.takeWhile Char.isDigit
  if ds.isEmpty then 0 else digitsToNat ds

/-- Stable insertion of an entry into a key-sorted list (model of the
stable JS Array.prototype.sort with comparator groupKey a - groupKey b). -/
def insertKeyed (x : String) : List String → List String
  | [] => [x]
  | y :: ys => if groupKey x ≤ groupKey y then x :: y :: ys else y :: insertKeyed x ys

def sortByKey : List String → List String
  | [] => []
  | x :: xs => insertKeyed x (sortByKey xs)

def findNextGroup (entries : List String) : Option String :=
  (sortByKey (entries.filter matchesNN)).head?

/-- The decision taken at the top of each pass of the resume loop
(orchestrate.ts, lines 529-543): no group left means the plan directory is
renamed into the review stage and completion is reported; otherwise the
named group is executed. -/
inductive ResumeAction where
  | promote
  | runGroup (name : String)
deriving DecidableEq

def resumeSelect (acceptedEntries : List String) : ResumeAction :=
  match findNextGroup acceptedEntries with
  | none => .promote
  | some g => .runGroup g

/-! ## executeTask (orchestrate.ts, lines 295-490)

The task directory is modelled by its entry listing and the outcome of the
two prompt-file reads (`Except` for build.prompt.md because the error
message feeds the tool_error report; the test.prompt.md read error is
swallowed, so an option suffices).  Each create-prompt-read exchange with
the agent-execution service is modelled by one `SessionResult` oracle
value; `err` carries whether the session had been created before the error
was raised and the session id in scope at that point ("error" when
creation itself failed).  The output records the failure value, how many
build/test sessions were consulted, and the filenames written into the
task directory, in order.  Quote characters around the task name in the
human-readable failure strings are omitted. -/

inductive FailureType where
  | task_session
  | test_session
  | test_verification
  | tool_error
  | execute_failure
deriving DecidableEq

structure TaskFailure where
  failure : String
  sessionFile : String
  sessionId : String
  buildSessionId : String
  failureType : FailureType
  failureDetails : String
deriving DecidableEq

inductive SessionResult where
  | ok (id : String) (messages : List MessageEntry)
  | err (created : Bool) (sid : String) (msg : String)

structure TaskDir where
  entries : List String
  buildPrompt : Except String String
  testPrompt : Option String

structure SessionEnv where
  build : SessionResult
  test : SessionResult

structure PhaseOut where
  result : Option TaskFailure
  sessionsCreated : Nat
  writes : List String
deriving DecidableEq

/-- The test step of executeTask (orchestrate.ts, lines 405-490), entered
with the build session id settled. -/
def testPhase (dir : TaskDir) (env : SessionEnv) (name buildSessionId : String) : PhaseOut :=
  match dir.testPrompt with
  | none => ⟨none, 0, []⟩
  | some _ =>
      match findSessionFile dir.entries "test.success" with
      | some _ => ⟨none, 0, []⟩
      | none =>
          match env.test with
          | .err created tsid m =>
              let f := "test.failed." ++ tsid ++ ".md"
              ⟨some ⟨"Test session failed for " ++ name ++ ": " ++ m, f, tsid,
                  buildSessionId, .test_session, m⟩,
                (if created then 1 else 0), [f]⟩
          | .ok tid msgs =>
              let r := extractTestResult msgs
              if r.passed then
                ⟨none, 1, ["test.success." ++ tid ++ ".md"]⟩
              else
                let f := "test.failed." ++ tid ++ ".md"
                ⟨some ⟨"Test FAILED for " ++ name ++ ".", f, tid, buildSessionId,
                    .test_verification, lastNLines (lastAssistantText msgs) 20⟩,
                  1, [f]⟩

structure ExecOut where
  result : Option TaskFailure
  buildSessionsCreated : Nat
  testSessionsCreated : Nat
  writes : List String
deriving DecidableEq

/-- executeTask: build step then test step. -/
def executeTask (dir : TaskDir) (env : SessionEnv) (name : String) : ExecOut :=
  match findSessionFile dir.entries "task.success" with
  | some f =>
      let p := testPhase dir env name (extractSessionId f)
      ⟨p.result, 0, p.sessionsCreated, p.writes⟩
  | none =>
      match dir.buildPrompt with
      | .error m =>
          ⟨some ⟨"Failed to read build.prompt.md for " ++ name ++ ": " ++ m,
              "task.failed.read_error.md", "read_error", "read_error", .tool_error, m⟩,
            0, 0, ["task.failed.read_error.md"]⟩
      | .ok _ =>
          match env.build with
          | .err created sid m =>
              let f := "task.failed." ++ sid ++ ".md"
              ⟨some ⟨"Build session failed for " ++ name ++ ": " ++ m, f, sid, sid,
                  .task_session, m⟩,
                (if created then 1 else 0), 0, [f]⟩
          | .ok sid msgs =>
              match extractExecuteResult msgs with
              | .failure content =>
                  let f := "task.failed." ++ sid ++ ".md"
                  ⟨some ⟨"Execute agent reported failure for " ++ name ++ ": " ++ content,
                      f, sid, sid, .execute_failure, content⟩,
                    1, 0, [f]⟩
              | .success _ =>
                  let p := testPhase dir env name sid
                  ⟨p.result, 1, p.sessionsCreated,
                    ["task.success." ++ sid ++ ".md", "work.md"] ++ p.writes⟩

/-! ## The concurrent-group branch of resume (orchestrate.ts, lines 545-577)

All child task directories (hidden entries excluded) are executed — the
source awaits a Promise.all over them, and each executeTask resolves with
null or a TaskFailure value rather than rejecting — then every failure is
collected into one report; the group directory is renamed into done/ only
when there is no failure.  The per-child execution is abstracted by the
`exec` function (the executeTask of that child directory). -/

inductive GroupOutcome where
  | failed (failures : List (String × TaskFailure))
  | movedToDone
deriving DecidableEq

def runConcurrentGroup (subEntries : List String)
    (exec : String → Option TaskFailure) : GroupOutcome :=
  let taskNames := subEntries.filter (fun e => !(strStarts "." e))
  let failures := taskNames.filterMap (fun n => (exec n).map (fun f => (n, f)))
  if failures.isEmpty then .movedToDone else .failed failures

/-! ## moveTaskStatus / movePlanToStage (src/core/state.ts, lines 10-60)

The filesystem is modelled as the set of directory paths recorded as
existing, a path being a list of segments; a path exists when it is a
recorded path or an ancestor of one.  `mkdir recursive` records the path;
`rename` re-roots every recorded path under the source.  Both move
operations create the destination container first, then verify the
source, and throw (here: return `.error`) when it is absent; the final
state is returned in both cases so that the on-disk effect of the error
path is visible. -/

abbrev FsPath := List String

structure FS where
  dirs : List FsPath
deriving DecidableEq

/-- Segment-wise prefix test for paths: listStartsSeg p q holds when q
starts with p, i.e. p is q itself or an ancestor of q. -/
def listStartsSeg : FsPath → FsPath → Bool
  | [], _ => true
  | _ :: _, [] => false
  | d :: ds, c :: cs => c = d && listStartsSeg ds cs

def pathExists (fs : FS) (p : FsPath) : Bool :=
  fs.dirs.any (fun q => listStartsSeg p q)

def mkdirp (fs : FS) (p : FsPath) : FS :=
  if pathExists fs p then fs else ⟨p :: fs.dirs⟩

def renameFS (fs : FS) (src dst : FsPath) : FS :=
  ⟨fs.dirs.map (fun q => if listStartsSeg src q then dst ++ q.drop src.length else q)⟩

def moveTaskStatus (fs : FS) (root : FsPath)
    (planName taskDirName fromStatus toStatus : String) :
    Except String Unit × FS :=
  let planDir := root ++ ["build", planName]
  let src := planDir ++ [fromStatus, taskDirName]
  let dst := planDir ++ [toStatus, taskDirName]
  let fs1 := mkdirp fs (planDir ++ [toStatus])
  if pathExists fs1 src then (.ok (), renameFS fs1 src dst)
  else
    (.error ("Task directory not found: " ++ fromStatus ++ "/" ++ taskDirName ++
      " in plan " ++ planName), fs1)

def movePlanToStage (fs : FS) (root : FsPath)
    (planName fromStage toStage : String) :
    Except String Unit × FS :=
  let src := root ++ [fromStage, planName]
  let dst := root ++ [toStage, planName]
  let fs1 := mkdirp fs (root ++ [toStage])
  if pathExists fs1 src then (.ok (), renameFS fs1 src dst)
  else (.error ("Plan directory not found: " ++ fromStage ++ "/" ++ planName), fs1)

/-! ## Helper lemmas -/

theorem stripStart_append (p l : List Char) : stripStart p (p ++ l) = some l := by
  induction p with
  | nil => rfl
  | cons c cs ih => simp [stripStart, ih]

theorem string_mk_toList (s : String) : String.mk s.toList = s := by
  cases s
  rfl

theorem toList_append (s t : String) : (s ++ t).toList = s.toList ++ t.toList := by
  simp [String.toList]

/-- The session id round-trips through the session filename: for any
non-empty id, the id parsed back out of `task.success.{id}.md` is id. -/
theorem extractSessionId_fixFile (id : String) (h : id.toList ≠ []) :
    extractSessionId (fixTaskSuccessFile id) = id := by
  obtain ⟨c, cs, hrev⟩ : ∃ c cs, id.toList.reverse = c :: cs := by
    cases hr : id.toList.reverse with
    | nil => exact absurd (List.reverse_eq_nil_iff.mp hr) h
    | cons c cs => exact ⟨c, cs, rfl⟩
  have hdata : (fixTaskSuccessFile id).toList
      = "task.success.".toList ++ (id.toList ++ ".md".toList) := by
    show ("task.success." ++ id ++ ".md").toList = _
    rw [toList_append, toList_append, List.append_assoc]
  have hstrip : stripSessionTag ((fixTaskSuccessFile id).toList)
      = some (id.toList ++ ".md".toList) := by
    rw [hdata]
    simp only [stripSessionTag, stripStart_append]
  have hr2 : (id.toList ++ ".md".toList).reverse = 'd' :: 'm' :: '.' :: (c :: cs) := by
    rw [List.reverse_append, hrev]
    rfl
  have hchop : chopMdSuffix (id.toList ++ ".md".toList) = some id.toList := by
    simp only [chopMdSuffix, hr2]
    rw [← hrev, List.reverse_reverse]
  simp only [extractSessionId, hstrip, hchop]
  exact string_mk_toList id

/-! ## C10: empty transcripts are failures, not default successes -/

/-- C10: for every fetched transcript containing zero assistant messages,
extractExecuteResult returns the failure verdict (which executeTask maps
to execute_failure) and extractTestResult returns passed = false, instead
of the no-marker default of success. -/
theorem c10_empty_transcript_fails (messages : List MessageEntry)
    (h : messages.filter (fun m => m.role = "assistant") = []) :
    extractExecuteResult messages
        = .failure "No assistant response found in execute session."
      ∧ extractTestResult messages
        = ⟨false, "No assistant response found in test session."⟩ := by
  constructor
  · simp [extractExecuteResult, h]
  · simp [extractTestResult, h]

/-- Witness for C10 at a transcript holding a single user message. -/
theorem c10_empty_transcript_fails_witness :
    extractExecuteResult [⟨"user", [⟨"text", some "hi"⟩]⟩]
        = .failure "No assistant response found in execute session."
      ∧ extractTestResult [⟨"user", [⟨"text", some "hi"⟩]⟩]
        = ⟨false, "No assistant response found in test session."⟩ :=
  c10_empty_transcript_fails [⟨"user", [⟨"text", some "hi"⟩]⟩] (by decide)

/-! ## C6: missing build instruction is tool_error, no session created -/

/-- C6: with no prior build-success transcript and an unreadable
build.prompt.md, executeTask reports a tool_error failure, creates no
session of either kind, and writes only the read_error marker file. -/
theorem c6_missing_build_prompt (dir : TaskDir) (env : SessionEnv) (name m : String)
    (hfind : findSessionFile dir.entries "task.success" = none)
    (hread : dir.buildPrompt = .error m) :
    executeTask dir env name
      = ⟨some ⟨"Failed to read build.prompt.md for " ++ name ++ ": " ++ m,
          "task.failed.read_error.md", "read_error", "read_error", .tool_error, m⟩,
        0, 0, ["task.failed.read_error.md"]⟩
      ∧ (executeTask dir env name).buildSessionsCreated = 0
      ∧ (executeTask dir env name).testSessionsCreated = 0
      ∧ ∀ tf, (executeTask dir env name).result = some tf → tf.failureType = .tool_error := by
  have hmain : executeTask dir env name
      = ⟨some ⟨"Failed to read build.prompt.md for " ++ name ++ ": " ++ m,
          "task.failed.read_error.md", "read_error", "read_error", .tool_error, m⟩,
        0, 0, ["task.failed.read_error.md"]⟩ := by
    simp [executeTask, hfind, hread]
  refine ⟨hmain, ?_, ?_, ?_⟩
  · rw [hmain]
  · rw [hmain]
  · rw [hmain]
    rintro tf ⟨rfl⟩
    rfl

/-- Witness for C6 at a concrete empty task directory. -/
theorem c6_missing_build_prompt_witness :
    executeTask ⟨[], .error "ENOENT", none⟩ ⟨.ok "b" [], .ok "t" []⟩ "demo"
      = ⟨some ⟨"Failed to read build.prompt.md for demo: ENOENT",
          "task.failed.read_error.md", "read_error", "read_error", .tool_error, "ENOENT"⟩,
        0, 0, ["task.failed.read_error.md"]⟩ :=
  (c6_missing_build_prompt ⟨[], .error "ENOENT", none⟩ ⟨.ok "b" [], .ok "t" []⟩
    "demo" "ENOENT" rfl rfl).1

/-! ## C5: an existing build-success transcript short-circuits the build -/

/-- C5: when the task directory already holds a task.success.{id}.md
transcript (in particular the one fixTask writes), executeTask consults no
build session at all, reuses id as the build session id, and its outcome
is exactly the outcome of the verification step run with that id. -/
theorem c5_reuse_build_success (dir : TaskDir) (env : SessionEnv) (name id : String)
    (hfind : findSessionFile dir.entries "task.success" = some (fixTaskSuccessFile id))
    (hid : id.toList ≠ []) :
    executeTask dir env name
      = ⟨(testPhase dir env name id).result, 0,
          (testPhase dir env name id).sessionsCreated,
          (testPhase dir env name id).writes⟩
      ∧ (executeTask dir env name).buildSessionsCreated = 0 := by
  have hmain : executeTask dir env name
      = ⟨(testPhase dir env name id).result, 0,
          (testPhase dir env name id).sessionsCreated,
          (testPhase dir env name id).writes⟩ := by
    simp [executeTask, hfind, extractSessionId_fixFile id hid]
  exact ⟨hmain, by rw [hmain]⟩

/-- Witness for C5: a directory holding only the fixTask transcript for
session s77 and a test prompt proceeds straight to verification, whose
passing run writes only the test-success transcript. -/
theorem c5_reuse_build_success_witness :
    executeTask ⟨["task.success.s77.md"], .ok "bp", some "tp"⟩
        ⟨.ok "b" [], .ok "t9" [⟨"assistant", [⟨"text", some "PASS"⟩]⟩]⟩ "demo"
      = ⟨(testPhase ⟨["task.success.s77.md"], .ok "bp", some "tp"⟩
            ⟨.ok "b" [], .ok "t9" [⟨"assistant", [⟨"text", some "PASS"⟩]⟩]⟩ "demo" "s77").result,
          0,
          (testPhase ⟨["task.success.s77.md"], .ok "bp", some "tp"⟩
            ⟨.ok "b" [], .ok "t9" [⟨"assistant", [⟨"text", some "PASS"⟩]⟩]⟩ "demo" "s77").sessionsCreated,
          (testPhase ⟨["task.success.s77.md"], .ok "bp", some "tp"⟩
            ⟨.ok "b" [], .ok "t9" [⟨"assistant", [⟨"text", some "PASS"⟩]⟩]⟩ "demo" "s77").writes⟩ :=
  (c5_reuse_build_success _ _ "demo" "s77" (by decide) (by decide)).1

/-! ## C2: the PASS/FAIL verdict scan -/

/-- A verification transcript whose final assistant message carries no
PASS and no FAIL token. -/
def c2msgs : List MessageEntry := [⟨"assistant", [⟨"text", some "Everything checks out"⟩]⟩]

def c2dir : TaskDir := ⟨["task.success.b1.md"], .ok "bp", some "tp"⟩

def c2env : SessionEnv := ⟨.ok "b0" [], .ok "t1" c2msgs⟩

/-- C2 counterexample: the final agent message contains neither PASS nor
FAIL, yet the task completes with a test.success transcript persisted —
refuting that anything other than PASS counts as FAIL and that only a
clean PASS persists a success transcript. -/
theorem c2_counterexample :
    executeTask c2dir c2env "demo" = ⟨none, 0, 1, ["test.success.t1.md"]⟩
      ∧ strHasSub "PASS" (upperAscii (lastAssistantText c2msgs)) = false
      ∧ strHasSub "FAIL" (upperAscii (lastAssistantText c2msgs)) = false
      ∧ extractTestResult c2msgs = ⟨true, "Everything checks out"⟩ := by
  refine ⟨?_, ?_, ?_, ?_⟩ <;> decide

/-- C2 amended: the verdict is FAIL exactly when the transcript has no
assistant message or the uppercased text of the final assistant message
contains the substring FAIL (so a message with no PASS token still counts
as a pass); a FAIL verdict yields a test_verification failure whose
failureDetails is the last 20 non-blank lines of that final message and a
test.failed transcript, while any other outcome persists a test.success
transcript and completes the task. -/
theorem c2_amended_fail_scan (dir : TaskDir) (env : SessionEnv)
    (name bsid tp tid : String) (msgs : List MessageEntry)
    (h1 : dir.testPrompt = some tp)
    (h2 : findSessionFile dir.entries "test.success" = none)
    (h3 : env.test = .ok tid msgs) :
    ((extractTestResult msgs).passed = false
        ↔ ((msgs.filter (fun m => m.role = "assistant")).isEmpty = true
            ∨ strHasSub "FAIL" (upperAscii (lastAssistantText msgs)) = true))
      ∧ ((extractTestResult msgs).passed = false →
          testPhase dir env name bsid
            = ⟨some ⟨"Test FAILED for " ++ name ++ ".",
                "test.failed." ++ tid ++ ".md", tid, bsid, .test_verification,
                lastNLines (lastAssistantText msgs) 20⟩,
              1, ["test.failed." ++ tid ++ ".md"]⟩)
      ∧ ((extractTestResult msgs).passed = true →
          testPhase dir env name bsid = ⟨none, 1, ["test.success." ++ tid ++ ".md"]⟩) := by
  refine ⟨?_, ?_, ?_⟩
  · by_cases hA : (msgs.filter (fun m => m.role = "assistant")).isEmpty
    · simp [extractTestResult, hA]
    · by_cases hF : strHasSub "FAIL" (upperAscii (lastAssistantText msgs)) = true
      · simp [extractTestResult, hA, hF]
      · simp [extractTestResult, hA, hF]
  · intro hp
    simp [testPhase, h1, h2, h3, hp]
  · intro hp
    simp [testPhase, h1, h2, h3, hp]

/-- Witness for C2 amended at a failing and a passing concrete transcript. -/
theorem c2_amended_fail_scan_witness :
    testPhase ⟨[], .ok "bp", some "tp"⟩
        ⟨.ok "b" [], .ok "t2" [⟨"assistant", [⟨"text", some "verdict: FAIL"⟩]⟩]⟩ "w" "b9"
      = ⟨some ⟨"Test FAILED for w.", "test.failed.t2.md", "t2", "b9", .test_verification,
          "verdict: FAIL"⟩, 1, ["test.failed.t2.md"]⟩ := by
  have h := (c2_amended_fail_scan ⟨[], .ok "bp", some "tp"⟩
      ⟨.ok "b" [], .ok "t2" [⟨"assistant", [⟨"text", some "verdict: FAIL"⟩]⟩]⟩
      "w" "b9" "tp" "t2" [⟨"assistant", [⟨"text", some "verdict: FAIL"⟩]⟩]
      rfl rfl rfl).2.1 (by decide)
  rw [h]
  decide

/-! ## C4: concurrent groups settle fully and report all failures -/

/-- C4: the concurrent branch of resume executes every non-hidden child of
the group, collects the failures of all failing children into one report
(a succeeding sibling never hides a failing one), and relocates the group
directory into done/ exactly when every child succeeded. -/
theorem c4_concurrent_group (subEntries : List String)
    (exec : String → Option TaskFailure) :
    (runConcurrentGroup subEntries exec = .movedToDone
        ↔ ∀ n ∈ subEntries.filter (fun e => !(strStarts "." e)), exec n = none)
      ∧ (∀ n f, n ∈ subEntries.filter (fun e => !(strStarts "." e)) → exec n = some f →
          runConcurrentGroup subEntries exec
              = .failed ((subEntries.filter (fun e => !(strStarts "." e))).filterMap
                  (fun n => (exec n).map (fun tf => (n, tf))))
            ∧ (n, f) ∈ (subEntries.filter (fun e => !(strStarts "." e))).filterMap
                  (fun n => (exec n).map (fun tf => (n, tf)))) := by
  have hdef : runConcurrentGroup subEntries exec
      = (if ((subEntries.filter (fun e => !(strStarts "." e))).filterMap
            (fun n => (exec n).map (fun tf => (n, tf)))).isEmpty
         then GroupOutcome.movedToDone
         else .failed ((subEntries.filter (fun e => !(strStarts "." e))).filterMap
            (fun n => (exec n).map (fun tf => (n, tf))))) := rfl
  constructor
  · rw [hdef]
    by_cases hE : ((subEntries.filter (fun e => !(strStarts "." e))).filterMap
        (fun n => (exec n).map (fun tf => (n, tf)))).isEmpty = true
    · rw [if_pos hE]
      rw [List.isEmpty_iff, List.filterMap_eq_nil_iff] at hE
      constructor
      · intro _ n hn
        simpa using hE n hn
      · intro _
        rfl
    · rw [if_neg hE]
      rw [List.isEmpty_iff, List.filterMap_eq_nil_iff] at hE
      constructor
      · intro hcon
        exact GroupOutcome.noConfusion hcon
      · intro hall
        exact absurd (fun n hn => by simp [hall n hn]) hE
  · intro n f hn hf
    have hmem : (n, f) ∈ (subEntries.filter (fun e => !(strStarts "." e))).filterMap
        (fun n => (exec n).map (fun tf => (n, tf))) :=
      List.mem_filterMap.mpr ⟨n, hn, by simp [hf]⟩
    have hne : ¬(((subEntries.filter (fun e => !(strStarts "." e))).filterMap
        (fun n => (exec n).map (fun tf => (n, tf)))).isEmpty = true) := by
      intro hnil
      rw [List.isEmpty_iff] at hnil
      rw [hnil] at hmem
      exact List.not_mem_nil _ hmem
    refine ⟨?_, hmem⟩
    rw [hdef, if_neg hne]

/-- Witness for C4: child A fails, child B succeeds; the report names A
and the group is not moved to done. -/
def c4fail : TaskFailure :=
  ⟨"boom", "task.failed.x.md", "x", "x", .execute_failure, "boom"⟩

def c4exec : String → Option TaskFailure :=
  fun n => if n = "A" then some c4fail else none

theorem c4_concurrent_group_witness :
    runConcurrentGroup ["A", "B"] c4exec = .failed [("A", c4fail)]
      ∧ ("A", c4fail) ∈ [("A", c4fail)]
      ∧ runConcurrentGroup ["A", "B"] c4exec ≠ .movedToDone := by
  have h := (c4_concurrent_group ["A", "B"] c4exec).2 "A" c4fail
    (by decide) (by simp [c4exec])
  have hfl : (["A", "B"].filter (fun e => !(strStarts "." e))).filterMap
      (fun n => (c4exec n).map (fun tf => (n, tf))) = [("A", c4fail)] := by
    simp [c4exec, strStarts, listStarts]
  refine ⟨?_, ?_, ?_⟩
  · rw [h.1, hfl]
  · have := h.2
    rw [hfl] at this
    exact this
  · rw [h.1, hfl]
    simp

/-! ## C3: group selection in the resume loop -/

theorem mem_insertKeyed (x y : String) (l : List String) :
    y ∈ insertKeyed x l ↔ y = x ∨ y ∈ l := by
  induction l with
  | nil => simp [insertKeyed]
  | cons z zs ih =>
      simp only [insertKeyed]
      split
      · simp [List.mem_cons]
      · simp only [List.mem_cons, ih]
        tauto

theorem mem_sortByKey (y : String) (l : List String) :
    y ∈ sortByKey l ↔ y ∈ l := by
  induction l with
  | nil => simp [sortByKey]
  | cons z zs ih => simp [sortByKey, mem_insertKeyed, ih]

theorem insertKeyed_ne_nil (x : String) (l : List String) : insertKeyed x l ≠ [] := by
  cases l with
  | nil => simp [insertKeyed]
  | cons z zs =>
      simp only [insertKeyed]
      split <;> simp

theorem sortByKey_eq_nil (l : List String) : sortByKey l = [] ↔ l = [] := by
  cases l with
  | nil => simp [sortByKey]
  | cons z zs =>
      simp only [sortByKey]
      constructor
      · intro h
        exact absurd h (insertKeyed_ne_nil _ _)
      · intro h
        exact absurd h (by simp)

theorem pairwise_insertKeyed (x : String) (l : List String)
    (h : l.Pairwise (fun a b => groupKey a ≤ groupKey b)) :
    (insertKeyed x l).Pairwise (fun a b => groupKey a ≤ groupKey b) := by
  induction l with
  | nil => simp [insertKeyed]
  | cons z zs ih =>
      rw [List.pairwise_cons] at h
      simp only [insertKeyed]
      split
      · rename_i hle
        rw [List.pairwise_cons]
        refine ⟨?_, List.pairwise_cons.mpr h⟩
        intro y hy
        rcases List.mem_cons.mp hy with rfl | hy
        · exact hle
        · exact le_trans hle (h.1 y hy)
      · rename_i hgt
        rw [List.pairwise_cons]
        constructor
        · intro y hy
          rcases (mem_insertKeyed x y zs).mp hy with rfl | hy
          · omega
          · exact h.1 y hy
        · exact ih h.2

theorem pairwise_sortByKey (l : List String) :
    (sortByKey l).Pairwise (fun a b => groupKey a ≤ groupKey b) := by
  induction l with
  | nil => simp [sortByKey]
  | cons z zs ih => exact pairwise_insertKeyed z (sortByKey zs) ih

/-- C3 counterexample: with accepted entries 9-d and 10-b, the entry of
lowest numeric order is 9-d (order 9 < 10), yet findNextGroup selects
10-b, because only entries with an exactly-two-digit prefix are
considered; and with 9-d alone the resume loop promotes the plan even
though a numbered group remains in accepted. -/
theorem c3_counterexample :
    findNextGroup ["9-d", "10-b"] = some "10-b"
      ∧ (parseTaskOrder "9-d").1 = some 9
      ∧ (parseTaskOrder "10-b").1 = some 10
      ∧ findNextGroup ["9-d"] = none
      ∧ resumeSelect ["9-d"] = .promote := by
  refine ⟨?_, ?_, ?_, ?_, ?_⟩ <;> decide

/-- C3 amended: on each pass the scheduler considers only the accepted
entries matching the two-digit-prefix pattern NN-; among those it selects
one of lowest numeric key (the first such entry on ties), and it promotes
the plan to the review stage exactly when no NN- entry remains in
accepted, regardless of any other entries still present there. -/
theorem c3_amended_group_selection (entries : List String) :
    (resumeSelect entries = .promote ↔ ∀ e ∈ entries, matchesNN e = false)
      ∧ (∀ g, findNextGroup entries = some g →
          g ∈ entries ∧ matchesNN g = true
            ∧ ∀ e ∈ entries, matchesNN e = true → groupKey g ≤ groupKey e) := by
  constructor
  · unfold resumeSelect
    have hnone : findNextGroup entries = none ↔ ∀ e ∈ entries, matchesNN e = false := by
      unfold findNextGroup
      rw [List.head?_eq_none_iff, sortByKey_eq_nil, List.filter_eq_nil_iff]
      simp
    constructor
    · intro h
      rcases hfg : findNextGroup entries with _ | g
      · exact hnone.mp hfg
      · rw [hfg] at h
        exact ResumeAction.noConfusion h
    · intro h
      rw [hnone.mpr h]
  · intro g hg
    unfold findNextGroup at hg
    rcases hs : sortByKey (entries.filter matchesNN) with _ | ⟨x, rest⟩
    · rw [hs] at hg
      exact Option.noConfusion hg
    · rw [hs] at hg
      injection hg with hx
      subst hx
      have hmem : x ∈ entries.filter matchesNN := by
        rw [← mem_sortByKey, hs]
        exact List.mem_cons_self _ _
      have hge := List.mem_filter.mp hmem
      refine ⟨hge.1, hge.2, ?_⟩
      intro e he hNN
      have hemem : e ∈ sortByKey (entries.filter matchesNN) := by
        rw [mem_sortByKey]
        exact List.mem_filter.mpr ⟨he, hNN⟩
      rw [hs] at hemem
      rcases List.mem_cons.mp hemem with rfl | hemem
      · exact le_refl _
      · have hp := pairwise_sortByKey (entries.filter matchesNN)
        rw [hs, List.pairwise_cons] at hp
        exact hp.1 e hemem

/-- Witness for C3 amended on concrete accepted listings. -/
theorem c3_amended_group_selection_witness :
    resumeSelect ["done.txt"] = .promote
      ∧ ("03-x" ∈ ["03-x", "01-y"] ∧ matchesNN "03-x" = true
          ∧ ∀ e ∈ ["03-x", "01-y"], matchesNN e = true → groupKey "01-y" ≤ groupKey e) := by
  constructor
  · exact (c3_amended_group_selection ["done.txt"]).1.mpr (by decide)
  · have h := (c3_amended_group_selection ["03-x", "01-y"]).2 "01-y" (by decide)
    exact ⟨by decide, by decide, h.2.2⟩

/-! ## C9: move operations create the destination before checking the source -/

theorem listStartsSeg_refl (p : FsPath) : listStartsSeg p p = true := by
  induction p with
  | nil => rfl
  | cons c cs ih => simp [listStartsSeg, ih]

theorem listStartsSeg_length (p q : FsPath) (h : listStartsSeg p q = true) :
    p.length ≤ q.length := by
  induction p generalizing q with
  | nil => simp
  | cons c cs ih =>
      cases q with
      | nil => simp [listStartsSeg] at h
      | cons d ds =>
          simp only [listStartsSeg, Bool.and_eq_true] at h
          have := ih ds h.2
          simp only [List.length_cons]
          omega

theorem pathExists_mkdirp_self (fs : FS) (p : FsPath) :
    pathExists (mkdirp fs p) p = true := by
  unfold mkdirp
  split
  · assumption
  · simp [pathExists, listStartsSeg_refl]

theorem pathExists_mkdirp_of_short (fs : FS) (p q : FsPath)
    (hq : pathExists fs q = false) (hlen : p.length < q.length) :
    pathExists (mkdirp fs p) q = false := by
  unfold mkdirp
  split
  · exact hq
  · simp only [pathExists, List.any_cons, Bool.or_eq_false_iff]
    constructor
    · by_contra hcon
      simp only [Bool.not_eq_false] at hcon
      have := listStartsSeg_length q p hcon
      omega
    · exact hq

theorem mkdirp_dirs_superset (fs : FS) (p : FsPath) :
    ∀ q ∈ fs.dirs, q ∈ (mkdirp fs p).dirs := by
  intro q hq
  unfold mkdirp
  split
  · exact hq
  · exact List.mem_cons_of_mem _ hq

/-- C9: moveTaskStatus and movePlanToStage run mkdir on the destination
container before stat-ing the source; with the source absent they return
the not-found error, relocate nothing (the final state is exactly the
input state plus the destination container), the source is still absent,
but the destination container now exists — so the error path is not fully
state-preserving when the destination container was new. -/
theorem c9_move_error_path :
    (∀ (fs : FS) (root : FsPath) (plan task fromS toS : String),
      pathExists fs ((root ++ ["build", plan]) ++ [fromS, task]) = false →
      (moveTaskStatus fs root plan task fromS toS).1
          = .error ("Task directory not found: " ++ fromS ++ "/" ++ task
              ++ " in plan " ++ plan)
        ∧ (moveTaskStatus fs root plan task fromS toS).2
            = mkdirp fs ((root ++ ["build", plan]) ++ [toS])
        ∧ pathExists (moveTaskStatus fs root plan task fromS toS).2
            ((root ++ ["build", plan]) ++ [toS]) = true
        ∧ pathExists (moveTaskStatus fs root plan task fromS toS).2
            ((root ++ ["build", plan]) ++ [fromS, task]) = false
        ∧ ∀ p ∈ fs.dirs, p ∈ (moveTaskStatus fs root plan task fromS toS).2.dirs)
      ∧ (∀ (fs : FS) (root : FsPath) (plan fromStage toStage : String),
        pathExists fs (root ++ [fromStage, plan]) = false →
        (movePlanToStage fs root plan fromStage toStage).1
            = .error ("Plan directory not found: " ++ fromStage ++ "/" ++ plan)
          ∧ (movePlanToStage fs root plan fromStage toStage).2
              = mkdirp fs (root ++ [toStage])
          ∧ pathExists (movePlanToStage fs root plan fromStage toStage).2
              (root ++ [toStage]) = true
          ∧ pathExists (movePlanToStage fs root plan fromStage toStage).2
              (root ++ [fromStage, plan]) = false
          ∧ ∀ p ∈ fs.dirs, p ∈ (movePlanToStage fs root plan fromStage toStage).2.dirs) := by
  constructor
  · intro fs root plan task fromS toS hsrc
    have hlen : ((root ++ ["build", plan]) ++ [toS]).length
        < ((root ++ ["build", plan]) ++ [fromS, task]).length := by
      simp
    have hsrc1 : pathExists (mkdirp fs ((root ++ ["build", plan]) ++ [toS]))
        ((root ++ ["build", plan]) ++ [fromS, task]) = false :=
      pathExists_mkdirp_of_short fs _ _ hsrc hlen
    have hmove : moveTaskStatus fs root plan task fromS toS
        = (.error ("Task directory not found: " ++ fromS ++ "/" ++ task
            ++ " in plan " ++ plan),
           mkdirp fs ((root ++ ["build", plan]) ++ [toS])) := by
      unfold moveTaskStatus
      rw [if_neg]
      intro hcon
      rw [hsrc1] at hcon
      exact Bool.noConfusion hcon
    rw [hmove]
    exact ⟨rfl, rfl, pathExists_mkdirp_self _ _, hsrc1, mkdirp_dirs_superset _ _⟩
  · intro fs root plan fromStage toStage hsrc
    have hlen : (root ++ [toStage]).length < (root ++ [fromStage, plan]).length := by
      simp
    have hsrc1 : pathExists (mkdirp fs (root ++ [toStage]))
        (root ++ [fromStage, plan]) = false :=
      pathExists_mkdirp_of_short fs _ _ hsrc hlen
    have hmove : movePlanToStage fs root plan fromStage toStage
        = (.error ("Plan directory not found: " ++ fromStage ++ "/" ++ plan),
           mkdirp fs (root ++ [toStage])) := by
      unfold movePlanToStage
      rw [if_neg]
      intro hcon
      rw [hsrc1] at hcon
      exact Bool.noConfusion hcon
    rw [hmove]
    exact ⟨rfl, rfl, pathExists_mkdirp_self _ _, hsrc1, mkdirp_dirs_superset _ _⟩

/-- Witness for C9 on an initially empty filesystem: the failed move
leaves the newly created busy container behind. -/
theorem c9_move_error_path_witness :
    (moveTaskStatus ⟨[]⟩ ["r"] "p" "t" "accepted" "busy").1
        = .error "Task directory not found: accepted/t in plan p"
      ∧ (moveTaskStatus ⟨[]⟩ ["r"] "p" "t" "accepted" "busy").2
        = mkdirp ⟨[]⟩ (["r", "build", "p"] ++ ["busy"])
      ∧ (movePlanToStage ⟨[]⟩ ["r"] "p" "build" "review").1
        = .error "Plan directory not found: build/p" := by
  have h1 := (c9_move_error_path).1 ⟨[]⟩ ["r"] "p" "t" "accepted" "busy" (by decide)
  have h2 := (c9_move_error_path).2 ⟨[]⟩ ["r"] "p" "build" "review" (by decide)
  exact ⟨h1.1, h1.2.1, h2.1⟩

/-! ## Bucket-map lemmas for organizeIntoTree -/

theorem bucketGet_bucketAdd (m : List (Nat × List Task)) (o o' : Nat) (t : Task) :
    bucketGet (bucketAdd o' t m) o
      = if o = o' then bucketGet m o ++ [t] else bucketGet m o := by
  induction m with
  | nil =>
      by_cases h : o = o'
      · simp [bucketAdd, bucketGet, h]
      · have h2 : ¬(o' = o) := fun hc => h hc.symm
        simp [bucketAdd, bucketGet, h, h2]
  | cons kv rest ih =>
      obtain ⟨k, g⟩ := kv
      by_cases h1 : k = o'
      · by_cases h2 : k = o
        · have ho : o = o' := by omega
          simp [bucketAdd, bucketGet, h1, h2, ho]
        · have ho : ¬(o = o') := fun hc => h2 (by omega)
          have ho3 : ¬(o' = o) := fun hc => ho hc.symm
          simp [bucketAdd, bucketGet, h1, h2, ho, ho3]
      · by_cases h2 : k = o
        · have ho : ¬(o = o') := fun hc => h1 (by omega)
          simp [bucketAdd, bucketGet, h1, h2, ho]
        · simp only [bucketAdd, if_neg h1, bucketGet, if_neg h2]
          exact ih

theorem bucketKeys_bucketAdd (m : List (Nat × List Task)) (o : Nat) (t : Task) :
    bucketKeys (bucketAdd o t m)
      = if o ∈ bucketKeys m then bucketKeys m else bucketKeys m ++ [o] := by
  induction m with
  | nil => simp [bucketAdd, bucketKeys]
  | cons kv rest ih =>
      obtain ⟨k, g⟩ := kv
      by_cases hk : k = o
      · subst hk
        simp [bucketAdd, bucketKeys]
      · have hk2 : ¬(o = k) := fun hc => hk (by omega)
        simp only [bucketAdd, if_neg hk, bucketKeys, List.map_cons, List.mem_cons]
        simp only [bucketKeys] at ih
        rw [ih]
        by_cases ho : o ∈ rest.map (·.1)
        · simp [ho, hk2]
        · simp [ho, hk2]

theorem mem_bucketKeys_bucketAdd (m : List (Nat × List Task)) (o o'' : Nat) (t : Task) :
    o'' ∈ bucketKeys (bucketAdd o t m) ↔ o'' ∈ bucketKeys m ∨ o'' = o := by
  rw [bucketKeys_bucketAdd]
  split
  · rename_i h
    constructor
    · exact Or.inl
    · rintro (h1 | rfl)
      · exact h1
      · exact h
  · simp

theorem nodup_bucketKeys_bucketAdd (m : List (Nat × List Task)) (o : Nat) (t : Task)
    (h : (bucketKeys m).Nodup) : (bucketKeys (bucketAdd o t m)).Nodup := by
  rw [bucketKeys_bucketAdd]
  split
  · exact h
  · rename_i ho
    simp [List.nodup_append, h, ho]

theorem bucketGet_foldl (ts : List Task) :
    ∀ (m : List (Nat × List Task)) (o : Nat),
      bucketGet (List.foldl bucketStep m ts)
        o = bucketGet m o ++ ts.filter (fun t => t.order = some o) := by
  induction ts with
  | nil => intro m o; simp
  | cons t ts' ih =>
      intro m o
      rw [List.foldl_cons, ih]
      cases horder : t.order with
      | none =>
          have hno : (decide (t.order = some o)) = false := by simp [horder]
          simp [bucketStep, horder, List.filter_cons, hno]
      | some o' =>
          by_cases ho : o = o'
          · subst ho
            have hyes : (decide (t.order = some o)) = true := by simp [horder]
            simp [bucketStep, horder, bucketGet_bucketAdd, List.filter_cons, hyes]
          · have hno : (decide (t.order = some o)) = false := by
              simp only [horder, decide_eq_false_iff_not]
              intro hc
              exact ho (by injection hc; omega)
            have ho2 : ¬(o' = o) := fun hc => ho hc.symm
            simp [bucketStep, horder, bucketGet_bucketAdd, if_neg ho, List.filter_cons,
              hno, ho2]

theorem mem_bucketKeys_foldl (ts : List Task) :
    ∀ (m : List (Nat × List Task)) (o : Nat),
      o ∈ bucketKeys (List.foldl bucketStep m ts)
        ↔ o ∈ bucketKeys m ∨ some o ∈ ts.map Task.order := by
  induction ts with
  | nil => intro m o; simp
  | cons t ts' ih =>
      intro m o
      rw [List.foldl_cons, ih]
      cases horder : t.order with
      | none =>
          simp only [bucketStep, horder, List.map_cons, List.mem_cons]
          constructor
          · rintro (h | h)
            · exact Or.inl h
            · exact Or.inr (Or.inr h)
          · rintro (h | h | h)
            · exact Or.inl h
            · exact Option.noConfusion h
            · exact Or.inr h
      | some o' =>
          simp only [bucketStep, horder, mem_bucketKeys_bucketAdd, List.map_cons,
            List.mem_cons]
          constructor
          · rintro ((h | rfl) | h)
            · exact Or.inl h
            · exact Or.inr (Or.inl rfl)
            · exact Or.inr (Or.inr h)
          · rintro (h | h | h)
            · exact Or.inl (Or.inl h)
            · exact Or.inl (Or.inr (by injection h))
            · exact Or.inr h

theorem nodup_bucketKeys_foldl (ts : List Task) :
    ∀ (m : List (Nat × List Task)), (bucketKeys m).Nodup →
      (bucketKeys (List.foldl bucketStep m ts)).Nodup := by
  induction ts with
  | nil => intro m h; simpa using h
  | cons t ts' ih =>
      intro m h
      rw [List.foldl_cons]
      refine ih _ ?_
      cases horder : t.order with
      | none => simpa [bucketStep, horder] using h
      | some o' =>
          simp only [bucketStep, horder]
          exact nodup_bucketKeys_bucketAdd m o' t h

theorem bucketGet_collect (ts : List Task) (o : Nat) :
    bucketGet (collectNumbered ts) o = ts.filter (fun t => t.order = some o) := by
  unfold collectNumbered
  rw [bucketGet_foldl]
  rfl

theorem mem_bucketKeys_collect (ts : List Task) (o : Nat) :
    o ∈ bucketKeys (collectNumbered ts) ↔ some o ∈ ts.map Task.order := by
  unfold collectNumbered
  rw [mem_bucketKeys_foldl]
  simp [bucketKeys]

theorem nodup_bucketKeys_collect (ts : List Task) :
    (bucketKeys (collectNumbered ts)).Nodup := by
  unfold collectNumbered
  exact nodup_bucketKeys_foldl ts [] (by simp [bucketKeys])

theorem pairwise_lt_sortedOrders (ts : List Task) :
    (List.insertionSort (· ≤ ·) (bucketKeys (collectNumbered ts))).Pairwise (· < ·) := by
  have hs : (List.insertionSort (· ≤ ·) (bucketKeys (collectNumbered ts))).Pairwise
      (· ≤ ·) := List.sorted_insertionSort _ _
  have hn : (List.insertionSort (· ≤ ·) (bucketKeys (collectNumbered ts))).Nodup :=
    ((List.perm_insertionSort _ _).nodup_iff).2 (nodup_bucketKeys_collect ts)
  exact (hs.and hn).imp (fun h => lt_of_le_of_ne h.1 h.2)

/-- Every group of the numbered part of the tree is a bucket: the list of
exactly the tasks carrying that order, and every member carries it. -/
theorem mem_numbered_groups (ts : List Task) (g : List Task)
    (hg : g ∈ (List.insertionSort (· ≤ ·) (bucketKeys (collectNumbered ts))).map
        (fun o => bucketGet (collectNumbered ts) o)) :
    ∃ o, g = ts.filter (fun t => t.order = some o) ∧ ∀ t ∈ g, t.order = some o := by
  obtain ⟨o, _, rfl⟩ := List.mem_map.mp hg
  refine ⟨o, bucketGet_collect ts o, ?_⟩
  intro t ht
  rw [bucketGet_collect] at ht
  have := (List.mem_filter.mp ht).2
  exact of_decide_eq_true this

/-! ## C1: numeric grouping and ordering of sibling groups -/

/-- The concrete tree of the testable property in the specification. -/
def c1ts : List Task :=
  ["0-a", "2-c", "10-b", "9-d"].map (fun n => taskFromName n .accepted false [])

/-- C1: sibling tasks sharing a numeric prefix are grouped into one group
(each present order contributes exactly its bucket as a group), groups of
numbered tasks appear in strictly ascending numeric order — never
lexicographic — and the directory names 0-a, 2-c, 10-b, 9-d yield the
group order 0, 2, 9, 10. -/
theorem c1_numeric_group_order (ts : List Task) :
    List.Pairwise
        (fun g₁ g₂ => ∀ t₁ ∈ g₁, ∀ t₂ ∈ g₂, ∀ o₁ o₂,
          t₁.order = some o₁ → t₂.order = some o₂ → o₁ < o₂)
        (organizeIntoTree ts).groups
      ∧ (∀ o : Nat, some o ∈ ts.map Task.order →
          ts.filter (fun t => t.order = some o) ∈ (organizeIntoTree ts).groups)
      ∧ (organizeIntoTree c1ts).groups.map (fun g => g.map Task.order)
          = [[some 0], [some 2], [some 9], [some 10]] := by
  have hgroups : (organizeIntoTree ts).groups
      = (if (ts.filter (fun t => t.order = none)).isEmpty
         then (List.insertionSort (· ≤ ·) (bucketKeys (collectNumbered ts))).map
            (fun o => bucketGet (collectNumbered ts) o)
         else ((List.insertionSort (· ≤ ·) (bucketKeys (collectNumbered ts))).map
            (fun o => bucketGet (collectNumbered ts) o))
           ++ [ts.filter (fun t => t.order = none)]) := rfl
  have hmapped : List.Pairwise
      (fun g₁ g₂ => ∀ t₁ ∈ g₁, ∀ t₂ ∈ g₂, ∀ o₁ o₂,
        t₁.order = some o₁ → t₂.order = some o₂ → o₁ < o₂)
      ((List.insertionSort (· ≤ ·) (bucketKeys (collectNumbered ts))).map
        (fun o => bucketGet (collectNumbered ts) o)) := by
    rw [List.pairwise_map]
    refine (pairwise_lt_sortedOrders ts).imp ?_
    intro o₁ o₂ hlt t₁ ht₁ t₂ ht₂ o₁' o₂' h₁ h₂
    rw [bucketGet_collect] at ht₁ ht₂
    have e₁ : t₁.order = some o₁ := of_decide_eq_true (List.mem_filter.mp ht₁).2
    have e₂ : t₂.order = some o₂ := of_decide_eq_true (List.mem_filter.mp ht₂).2
    rw [e₁] at h₁
    rw [e₂] at h₂
    injection h₁ with h₁
    injection h₂ with h₂
    omega
  refine ⟨?_, ?_, by decide⟩
  · rw [hgroups]
    split
    · exact hmapped
    · rw [List.pairwise_append]
      refine ⟨hmapped, List.pairwise_singleton _ _, ?_⟩
      intro g₁ _ g₂ hg₂ t₁ _ t₂ ht₂ o₁ o₂ _ h₂
      rw [List.mem_singleton] at hg₂
      subst hg₂
      have : t₂.order = none := of_decide_eq_true (List.mem_filter.mp ht₂).2
      rw [this] at h₂
      exact Option.noConfusion h₂
  · intro o ho
    have hkeys : o ∈ bucketKeys (collectNumbered ts) := (mem_bucketKeys_collect ts o).mpr ho
    have hsorted : o ∈ List.insertionSort (· ≤ ·) (bucketKeys (collectNumbered ts)) :=
      ((List.perm_insertionSort _ _).mem_iff).mpr hkeys
    have hmem : ts.filter (fun t => t.order = some o)
        ∈ (List.insertionSort (· ≤ ·) (bucketKeys (collectNumbered ts))).map
          (fun o => bucketGet (collectNumbered ts) o) :=
      List.mem_map.mpr ⟨o, hsorted, (bucketGet_collect ts o).symm ▸ rfl⟩
    rw [hgroups]
    split
    · exact hmem
    · exact List.mem_append_left _ hmem

/-- Witness for C1: the order-9 siblings form one group of the concrete
tree. -/
theorem c1_numeric_group_order_witness :
    c1ts.filter (fun t => t.order = some 9) ∈ (organizeIntoTree c1ts).groups :=
  (c1_numeric_group_order c1ts).2.1 9 (by decide)

/-! ## C8: the unnumbered siblings form one trailing group -/

/-- The concrete mixed listing used as C8 witness input. -/
def c8ts : List Task :=
  ["b", "0-a", "c"].map (fun n => taskFromName n .accepted false [])

/-- C8: all unnumbered siblings collapse into exactly one group appended
after all numbered groups; with no unnumbered sibling no trailing group is
added (every group holds only numbered tasks); an empty container yields
an empty group list. -/
theorem c8_unnumbered_trailing_group (ts : List Task) :
    (ts.filter (fun t => t.order = none) ≠ [] →
        ∃ pre, (organizeIntoTree ts).groups
            = pre ++ [ts.filter (fun t => t.order = none)]
          ∧ ∀ g ∈ pre, ∀ t ∈ g, t.order ≠ none)
      ∧ (ts.filter (fun t => t.order = none) = [] →
          ∀ g ∈ (organizeIntoTree ts).groups, ∀ t ∈ g, t.order ≠ none)
      ∧ organizeIntoTree [] = ⟨[]⟩ := by
  have hnum : ∀ g ∈ (List.insertionSort (· ≤ ·) (bucketKeys (collectNumbered ts))).map
      (fun o => bucketGet (collectNumbered ts) o), ∀ t ∈ g, t.order ≠ none := by
    intro g hg t ht
    obtain ⟨o, _, hall⟩ := mem_numbered_groups ts g hg
    rw [hall t ht]
    exact Option.noConfusion
  have hgroups : (organizeIntoTree ts).groups
      = (if (ts.filter (fun t => t.order = none)).isEmpty
         then (List.insertionSort (· ≤ ·) (bucketKeys (collectNumbered ts))).map
            (fun o => bucketGet (collectNumbered ts) o)
         else ((List.insertionSort (· ≤ ·) (bucketKeys (collectNumbered ts))).map
            (fun o => bucketGet (collectNumbered ts) o))
           ++ [ts.filter (fun t => t.order = none)]) := rfl
  refine ⟨?_, ?_, rfl⟩
  · intro hne
    have hE : (ts.filter (fun t => t.order = none)).isEmpty = false := by
      cases hc : ts.filter (fun t => t.order = none) with
      | nil => exact absurd hc hne
      | cons x xs => rfl
    refine ⟨_, ?_, hnum⟩
    rw [hgroups, hE]
    simp
  · intro hnil
    have hE : (ts.filter (fun t => t.order = none)).isEmpty = true := by
      rw [List.isEmpty_iff]
      exact hnil
    rw [hgroups, hE]
    simpa using hnum

/-! ## C7: depth-first subtask gating in findNextExecutableTasks -/

/-- A non-complete member makes processGroup return a value, never null;
so does a non-empty accumulator. -/
theorem processGroup_ne_none : ∀ (g acc : List Task),
    (acc ≠ [] ∨ ∃ t ∈ g, complete t = false) → processGroup g acc ≠ none := by
  intro g
  induction g with
  | nil =>
      intro acc h
      rcases h with h | ⟨t, ht, _⟩
      · rw [processGroup.eq_1, if_neg (by simpa using h)]
        exact Option.noConfusion
      · exact absurd ht (List.not_mem_nil t)
  | cons t ts ih =>
      intro acc h
      rw [processGroup.eq_2]
      by_cases hc : complete t = true
      · rw [if_pos hc]
        apply ih
        rcases h with h | ⟨t', ht', hct'⟩
        · exact Or.inl h
        · rcases List.mem_cons.mp ht' with rfl | ht'
          · rw [hc] at hct'
            exact absurd hct' (by simp)
          · exact Or.inr ⟨t', ht', hct'⟩
      · rw [if_neg hc]
        cases hsub : findNextInTree t.subtasks with
        | some l =>
            exact Option.noConfusion
        | none =>
            show (if t.status = TStatus.accepted then processGroup ts (acc ++ [t])
              else if t.status = TStatus.busy then some [] else processGroup ts acc) ≠ none
            by_cases ha : t.status = TStatus.accepted
            · rw [if_pos ha]
              exact ih (acc ++ [t]) (Or.inl (by simp))
            · rw [if_neg ha]
              by_cases hb : t.status = TStatus.busy
              · rw [if_pos hb]
                exact Option.noConfusion
              · exfalso
                apply hc
                cases hts : t.status with
                | accepted => exact absurd hts ha
                | busy => exact absurd hts hb
                | tested => simp [complete, hts]

/-- A group with a non-complete member somewhere makes findNextInTree
return a value, never null. -/
theorem findNextInTree_ne_none : ∀ gs : List (List Task),
    (∃ g ∈ gs, ∃ t ∈ g, complete t = false) → findNextInTree gs ≠ none := by
  intro gs
  induction gs with
  | nil =>
      rintro ⟨g, hg, _⟩
      exact absurd hg (List.not_mem_nil g)
  | cons g rest ih =>
      rintro ⟨g', hg', t, ht, hct⟩
      rw [findNextInTree.eq_2]
      by_cases hall : g.all complete = true
      · rw [if_pos hall]
        apply ih
        rcases List.mem_cons.mp hg' with rfl | hg'
        · have := List.all_eq_true.mp hall t ht
          rw [hct] at this
          exact absurd this (by simp)
        · exact ⟨g', hg', t, ht, hct⟩
      · rw [if_neg hall]
        apply processGroup_ne_none
        right
        rw [Bool.not_eq_true, List.all_eq_false] at hall
        obtain ⟨x, hx, hcx⟩ := hall
        exact ⟨x, hx, by simpa using hcx⟩

/-- A task appearing in a ready set is an accepted, unskipped task whose
own subtask tree reports no remaining work. -/
def goodTask (x : Task) : Prop :=
  x.status = TStatus.accepted ∧ x.skipped = false ∧ findNextInTree x.subtasks = none

theorem result_good : ∀ n : Nat,
    (∀ gs l, sizeOf gs ≤ n → findNextInTree gs = some l → ∀ x ∈ l, goodTask x)
      ∧ (∀ g acc l, sizeOf g ≤ n → (∀ x ∈ acc, goodTask x) →
          processGroup g acc = some l → ∀ x ∈ l, goodTask x) := by
  intro n
  induction n using Nat.strong_induction_on with
  | _ n ih =>
      constructor
      · intro gs l hsz heq x hx
        match gs, hsz, heq with
        | [], hsz, heq =>
            rw [findNextInTree.eq_1] at heq
            exact Option.noConfusion heq
        | g :: rest, hsz, heq =>
            rw [findNextInTree.eq_2] at heq
            have hszc : 1 + sizeOf g + sizeOf rest ≤ n := by simpa using hsz
            by_cases hall : g.all complete = true
            · rw [if_pos hall] at heq
              exact (ih (sizeOf rest) (by omega)).1 rest l (le_refl _) heq x hx
            · rw [if_neg hall] at heq
              exact (ih (sizeOf g) (by omega)).2 g [] l (le_refl _)
                (by intro y hy; exact absurd hy (List.not_mem_nil y)) heq x hx
      · intro g acc l hsz hacc heq x hx
        match g, hsz, heq with
        | [], hsz, heq =>
            rw [processGroup.eq_1] at heq
            by_cases hE : acc.isEmpty = true
            · rw [if_pos hE] at heq
              exact Option.noConfusion heq
            · rw [if_neg hE] at heq
              injection heq with heq
              subst heq
              exact hacc x hx
        | t :: ts, hsz, heq =>
            rw [processGroup.eq_2] at heq
            have hszc : 1 + sizeOf t + sizeOf ts ≤ n := by simpa using hsz
            have hsub_sz : sizeOf t.subtasks < sizeOf t := sizeOf_subtasks_lt t
            by_cases hc : complete t = true
            · rw [if_pos hc] at heq
              exact (ih (sizeOf ts) (by omega)).2 ts acc l (le_refl _) hacc heq x hx
            · rw [if_neg hc] at heq
              cases hsub : findNextInTree t.subtasks with
              | some l' =>
                  rw [hsub] at heq
                  have hl : l' = l := by
                    have : some l' = some l := heq
                    injection this
                  subst hl
                  exact (ih (sizeOf t.subtasks) (by omega)).1 t.subtasks l'
                    (le_refl _) hsub x hx
              | none =>
                  rw [hsub] at heq
                  have heq2 : (if t.status = TStatus.accepted
                      then processGroup ts (acc ++ [t])
                      else if t.status = TStatus.busy then some []
                      else processGroup ts acc) = some l := heq
                  by_cases ha : t.status = TStatus.accepted
                  · rw [if_pos ha] at heq2
                    refine (ih (sizeOf ts) (by omega)).2 ts (acc ++ [t]) l (le_refl _)
                      ?_ heq2 x hx
                    intro y hy
                    rcases List.mem_append.mp hy with hy | hy
                    · exact hacc y hy
                    · rw [List.mem_singleton] at hy
                      subst hy
                      refine ⟨ha, ?_, hsub⟩
                      have hcf : complete y = false := by simpa using hc
                      simpa [complete, ha] using hcf
                  · rw [if_neg ha] at heq2
                    by_cases hb : t.status = TStatus.busy
                    · rw [if_pos hb] at heq2
                      injection heq2 with heq2
                      subst heq2
                      exact absurd hx (List.not_mem_nil x)
                    · rw [if_neg hb] at heq2
                      exact (ih (sizeOf ts) (by omega)).2 ts acc l (le_refl _)
                        hacc heq2 x hx

/-- C7: a task whose nested subtask tree still holds an incomplete
(neither tested nor skipped) subtask is never part of a returned ready
set; and when such a task heads the first active group, the walker
returns the ready set of its subtask tree instead (which is non-null). -/
theorem c7_subtask_gating :
    (∀ (plan : Plan) (l : List Task), findNextExecutableTasks plan = some l →
        ∀ P : Task, (∃ g ∈ P.subtasks, ∃ s ∈ g, complete s = false) → P ∉ l)
      ∧ (∀ (P : Task) (rest : List Task) (gs : List (List Task)),
          complete P = false →
          (∃ g ∈ P.subtasks, ∃ s ∈ g, complete s = false) →
          findNextInTree ((P :: rest) :: gs) = findNextInTree P.subtasks
            ∧ findNextInTree P.subtasks ≠ none) := by
  constructor
  · intro plan l heq P hinc hP
    unfold findNextExecutableTasks at heq
    have hgood := (result_good (sizeOf plan.tasks)).1 plan.tasks l (le_refl _) heq P hP
    exact findNextInTree_ne_none P.subtasks hinc hgood.2.2
  · intro P rest gs hPc hinc
    have hne := findNextInTree_ne_none P.subtasks hinc
    refine ⟨?_, hne⟩
    have hall : (P :: rest).all complete = false := by
      rw [List.all_eq_false]
      exact ⟨P, List.mem_cons_self _ _, by simp [hPc]⟩
    rw [findNextInTree.eq_2, if_neg (by simp [hall])]
    rw [processGroup.eq_2, if_neg (by simp [hPc])]
    cases hsub : findNextInTree P.subtasks with
    | some l => rfl
    | none => exact absurd hsub hne

/-- Concrete subtask and parent for the C7 witness. -/
def c7sub : Task := .mk "0-sub" "sub" (some 0) .accepted false []

def c7parent : Task := .mk "0-parent" "parent" (some 0) .accepted false [[c7sub]]

/-- Witness for C7: the parent with an incomplete subtask is gated; the
walker returns the subtask ready set instead. -/
theorem c7_subtask_gating_witness :
    c7parent ∉ [c7sub]
      ∧ findNextInTree [[c7parent]] = findNextInTree c7parent.subtasks := by
  have hinc : ∃ g ∈ c7parent.subtasks, ∃ s ∈ g, complete s = false :=
    ⟨[c7sub], by simp [c7parent, Task.subtasks],
      c7sub, List.mem_cons_self _ _, by simp [complete, c7sub, Task.status, Task.skipped]⟩
  constructor
  · have heval : findNextInTree [[c7parent]] = some [c7sub] := by
      have h2 : findNextInTree ([] : List (List Task)) = none := findNextInTree.eq_1
      have h3 : processGroup [c7sub] [] = some [c7sub] := by
        rw [processGroup.eq_2, if_neg (by simp [complete, c7sub, Task.status, Task.skipped])]
        rw [show c7sub.subtasks = [] from rfl, h2]
        show (if c7sub.status = TStatus.accepted then processGroup [] ([] ++ [c7sub])
          else if c7sub.status = TStatus.busy then some [] else processGroup [] []) = _
        rw [if_pos (show c7sub.status = TStatus.accepted from rfl)]
        rw [processGroup.eq_1]
        rfl
      have h4 : findNextInTree [[c7sub]] = some [c7sub] := by
        rw [findNextInTree.eq_2,
          if_neg (by simp [complete, c7sub, Task.status, Task.skipped]), h3]
      have h5 : processGroup [c7parent] [] = some [c7sub] := by
        rw [processGroup.eq_2,
          if_neg (by simp [complete, c7parent, Task.status, Task.skipped])]
        rw [show c7parent.subtasks = [[c7sub]] from rfl, h4]
      rw [findNextInTree.eq_2,
        if_neg (by simp [complete, c7parent, Task.status, Task.skipped]), h5]
    intro hmem
    exact (c7_subtask_gating).1 ⟨"w", [[c7parent]]⟩ [c7sub] heval c7parent hinc hmem
  · exact ((c7_subtask_gating).2 c7parent [] []
      (by simp [complete, c7parent, Task.status, Task.skipped]) hinc).1

/-- Witness for C8 on the listing b, 0-a, c: the two unnumbered entries
collapse into the single trailing group. -/
theorem c8_unnumbered_trailing_group_witness :
    ∃ pre, (organizeIntoTree c8ts).groups
        = pre ++ [c8ts.filter (fun t => t.order = none)]
      ∧ ∀ g ∈ pre, ∀ t ∈ g, t.order ≠ none :=
  (c8_unnumbered_trailing_group c8ts).1 (by
    intro h
    rw [show c8ts.filter (fun t => t.order = none)
        = taskFromName "b" TStatus.accepted false []
          :: [taskFromName "c" TStatus.accepted false []] from rfl] at h
    exact List.noConfusion h)

end Autocode
